import Mathlib

/-!
Verification of the bounded exact-subset-sum reachability solver in `src/main.c`.

The program decides, by an explicit-stack depth-first search with memoization,
whether some subset of `n` items (each with a price and a calorie count) has
running price / calorie sums that never exceed the targets `j` / `k` and that
equal exactly `j` and `k` after all `n` decisions.

Embedding conventions:
* C `int` values become `Int` (no arithmetic here relies on machine width;
  all claims restrict inputs to the configured capacities).
* The flat `int data[3 * MAX_DEPTH_STACK]` stack with its `offset` becomes a
  `List Int` whose head is the top slot (`data[offset - 1]`); the length of the
  list is `offset`.  A push is a cons; a pop reads the head.
* The memoization table `table[x][y][z]` becomes the list of cells currently
  holding `BadPath`; `table_get` recovers the `memo_item` stored in a cell.
* The `while` loop of `solve` becomes a step function `solveStep` (one loop
  body execution) iterated by `solveLoop` with fuel; `none` signals either a
  stack underflow (undefined behavior in C) or fuel exhaustion, and the
  termination theorem shows neither happens for valid inputs.
-/

set_option autoImplicit false

namespace ProblemA

/-- `MAX_DEPTH_X` from `src/main.c` (line 4): first memo-table dimension. -/
def MAX_DEPTH_X : ℕ := 501

/-- `MAX_DEPTH_Y` from `src/main.c` (line 5): second memo-table dimension. -/
def MAX_DEPTH_Y : ℕ := 101

/-- `MAX_DEPTH_Z` from `src/main.c` (line 6): third memo-table dimension. -/
def MAX_DEPTH_Z : ℕ := 101

/-- `MAX_DEPTH_STACK` from `src/main.c` (line 7): the stack holds
`3 * MAX_DEPTH_STACK` ints, i.e. `MAX_DEPTH_STACK` three-slot states. -/
def MAX_DEPTH_STACK : ℕ := MAX_DEPTH_X * MAX_DEPTH_Y * MAX_DEPTH_Z

/-- A search state `(x, y, z)`: `x` items decided, cumulative price `y`,
cumulative calories `z`. -/
abbrev State := Int × Int × Int

/-- `memo_item_t` from `src/main.c` (lines 53-56). -/
inductive memo_item where
  | Unknown : memo_item
  | BadPath : memo_item
deriving DecidableEq, Repr

/-- `dfs_stack_push` from `src/main.c` (lines 31-34): writes `item` at slot
`offset` and increments `offset`; on the list model this is a cons. -/
def dfs_stack_push (stack : List Int) (item : Int) : List Int :=
  item :: stack

/-- `dfs_stack_pop` from `src/main.c` (lines 42-45): decrements `offset` and
returns the slot there; on the list model this returns the head and the tail.
The C code does not check emptiness; the model returns `0` for the head of an
empty stack, and the safety theorems show this case is never reached. -/
def dfs_stack_pop (stack : List Int) : Int × List Int :=
  (stack.headD 0, stack.tail)

/-- The memo table, represented by the list `dead` of cells that hold
`BadPath`; every other cell holds `Unknown`, exactly the initialization of the
global `table` in `src/main.c` (line 66). -/
def table_get (dead : List State) (s : State) : memo_item :=
  if s ∈ dead then memo_item.BadPath else memo_item.Unknown

/-- One execution of the `while` body of `solve` (`src/main.c` lines 90-120).

`swap = false` is the source's push order: the Buy successor is pushed before
the Skip successor (so Skip, pushed last, is popped first).  `swap = true` is
the reordered variant (Skip pushed before Buy) used by the push-order claim.

Returns `some (Sum.inr b)` when the body executes `return b` (line 95, or
line 121 when the `while` guard fails), `some (Sum.inl (stack, dead))` when
the body falls through to the next iteration, and `none` when a pop would
underflow the stack (undefined behavior in the C source). -/
def solveStep (swap : Bool) (n j k : Int) (prices calories : List Int)
    (stack : List Int) (dead : List State) :
    Option ((List Int × List State) ⊕ Bool) :=
  match stack with
  | [] => some (Sum.inr false)
  | x :: y :: z :: rest =>
      if x = n ∧ y = j ∧ z = k then some (Sum.inr true)
      else if table_get dead (x, y, z) = memo_item.BadPath then
        some (Sum.inl (rest, dead))
      else
        let new_x := x + 1
        let stack' :=
          if new_x ≤ n then
            let new_y := y + prices.getD x.toNat 0
            let new_z := z + calories.getD x.toNat 0
            let buyPush : List Int → List Int := fun s =>
              if new_y ≤ j ∧ new_z ≤ k then
                dfs_stack_push (dfs_stack_push (dfs_stack_push s new_z) new_y) new_x
              else s
            let skipPush : List Int → List Int := fun s =>
              dfs_stack_push (dfs_stack_push (dfs_stack_push s z) y) new_x
            if swap then buyPush (skipPush rest) else skipPush (buyPush rest)
          else rest
        some (Sum.inl (stack', (x, y, z) :: dead))
  | _ => none

/-- The `while` loop of `solve` (`src/main.c` lines 90-120), iterated with
fuel; `none` means the fuel ran out or a pop underflowed. -/
def solveLoop (swap : Bool) (n j k : Int) (prices calories : List Int) :
    ℕ → List Int → List State → Option Bool
  | 0, _, _ => none
  | fuel + 1, stack, dead =>
      match solveStep swap n j k prices calories stack dead with
      | none => none
      | some (Sum.inr b) => some b
      | some (Sum.inl (stack', dead')) =>
          solveLoop swap n j k prices calories fuel stack' dead'

/-- Fuel sufficient for the loop to run to completion on valid inputs: each
iteration either shrinks the stack or marks a fresh cell `BadPath`, and at
most `(n+1)*(j+1)*(k+1)` cells can ever be marked. -/
def solveFuel (n j k : Int) : ℕ :=
  4 * ((n + 1).toNat * ((j + 1).toNat * (k + 1).toNat)) + 4

/-- `solve` from `src/main.c` (lines 83-122): pushes the origin state
`(0, 0, 0)` (lines 86-88) onto the empty stack and runs the loop with the
memo table all `Unknown`, exactly the entry conditions the claims assume. -/
def solve (n j k : Int) (prices calories : List Int) : Option Bool :=
  solveLoop false n j k prices calories (solveFuel n j k)
    (dfs_stack_push (dfs_stack_push (dfs_stack_push [] 0) 0) 0) []

/-- The push-order variant of `solve`: identical except that within one
expansion the Skip successor is pushed before the Buy successor. -/
def solveSwapped (n j k : Int) (prices calories : List Int) : Option Bool :=
  solveLoop true n j k prices calories (solveFuel n j k)
    (dfs_stack_push (dfs_stack_push (dfs_stack_push [] 0) 0) 0) []

/-- The successor relation generated by one expansion in `solve`
(`src/main.c` lines 101-117): from `(x, y, z)` with `x + 1 ≤ n`, Buy moves to
`(x+1, y + prices[x], z + calories[x])` when both budgets stay respected, and
Skip always moves to `(x+1, y, z)`. -/
inductive Step (n j k : Int) (prices calories : List Int) : State → State → Prop where
  | buy {x y z : Int} :
      x + 1 ≤ n →
      y + prices.getD x.toNat 0 ≤ j →
      z + calories.getD x.toNat 0 ≤ k →
      Step n j k prices calories (x, y, z)
        (x + 1, y + prices.getD x.toNat 0, z + calories.getD x.toNat 0)
  | skip {x y z : Int} :
      x + 1 ≤ n →
      Step n j k prices calories (x, y, z) (x + 1, y, z)

/-- Reachability from the origin state `(0, 0, 0)` through `Step`. -/
def Reachable (n j k : Int) (prices calories : List Int) (s : State) : Prop :=
  Relation.ReflTransGen (Step n j k prices calories) (0, 0, 0) s

/-- Sum of the entries of `arr` selected by the 0/1 choice list `bs`
(`true` = buy). -/
def chosenSum (arr : List Int) (bs : List Bool) : Int :=
  (List.zipWith (fun b p => if b then p else 0) bs arr).sum

/-- Formalisation of the spec's result sentence (spec §4.2): there is a 0/1
choice for each item index such that the running sums of chosen prices and
calories never exceed `j` and `k` at any prefix and equal exactly `j` and `k`
after all `n` decisions. -/
def SpecSat (n j k : Int) (prices calories : List Int) : Prop :=
  ∃ bs : List Bool, bs.length = n.toNat ∧
    (∀ m, m ≤ n.toNat →
      chosenSum prices (bs.take m) ≤ j ∧ chosenSum calories (bs.take m) ≤ k) ∧
    chosenSum prices bs = j ∧ chosenSum calories bs = k

/-- The validity assumptions all claims place on the inputs of `solve`:
non-negative sizes and targets within the configured capacities, and item
arrays of length `n` with non-negative entries. -/
abbrev ValidInput (n j k : Int) (prices calories : List Int) : Prop :=
  0 ≤ n ∧ 0 ≤ j ∧ 0 ≤ k ∧
  n ≤ (MAX_DEPTH_X : Int) - 1 ∧ j ≤ (MAX_DEPTH_Y : Int) - 1 ∧
  k ≤ (MAX_DEPTH_Z : Int) - 1 ∧
  prices.length = n.toNat ∧ calories.length = n.toNat ∧
  (∀ p ∈ prices, 0 ≤ p) ∧ (∀ c ∈ calories, 0 ≤ c)

/-- The triples stored on the flat stack: slots are read three at a time in
the order `x`, `y`, `z`, matching the pops at `src/main.c` lines 91-93. -/
def triples : List Int → List State
  | x :: y :: z :: rest => (x, y, z) :: triples rest
  | _ => []

/-- A state within the bounds maintained by the search loop. -/
def ValidState (n j k : Int) (s : State) : Prop :=
  0 ≤ s.1 ∧ s.1 ≤ n ∧ 0 ≤ s.2.1 ∧ s.2.1 ≤ j ∧ 0 ≤ s.2.2 ∧ s.2.2 ≤ k

/-- One loop configuration leads to the next: the loop body runs and falls
through to the next iteration. -/
def LoopSteps (swap : Bool) (n j k : Int) (prices calories : List Int)
    (cfg cfg' : List Int × List State) : Prop :=
  Relation.ReflTransGen
    (fun a b => solveStep swap n j k prices calories a.1 a.2 = some (Sum.inl b))
    cfg cfg'

/-- The configuration every call of `solve` starts from: the origin state
pushed on the empty stack, the memo table all `Unknown`. -/
def initCfg : List Int × List State :=
  (dfs_stack_push (dfs_stack_push (dfs_stack_push [] 0) 0) 0, [])

/-- The stack produced by one expansion (`src/main.c` lines 101-117), as an
explicit list: when `x + 1 ≤ n`, the Skip triple is on top for the source's
push order and the Buy triple is on top for the swapped order; the Buy triple
appears only when both budgets stay respected. -/
def expandStack (swap : Bool) (n j k : Int) (prices calories : List Int)
    (x y z : Int) (rest : List Int) : List Int :=
  if x + 1 ≤ n then
    if y + prices.getD x.toNat 0 ≤ j ∧ z + calories.getD x.toNat 0 ≤ k then
      if swap then
        (x + 1) :: (y + prices.getD x.toNat 0) :: (z + calories.getD x.toNat 0) ::
          (x + 1) :: y :: z :: rest
      else
        (x + 1) :: y :: z ::
          (x + 1) :: (y + prices.getD x.toNat 0) :: (z + calories.getD x.toNat 0) :: rest
    else
      (x + 1) :: y :: z :: rest
  else rest

/-- The invariant maintained by every iteration of the search loop: the stack
holds complete, valid, reachable triples; the `BadPath` cells are valid
non-target states marked at most once whose successors were all pushed; the
origin is accounted for; and the stack height is bounded by the number of
expanded states. -/
structure Inv (n j k : Int) (prices calories : List Int)
    (stack : List Int) (dead : List State) : Prop where
  len3 : stack.length % 3 = 0
  stackValid : ∀ s ∈ triples stack, ValidState n j k s
  stackReach : ∀ s ∈ triples stack, Reachable n j k prices calories s
  deadValid : ∀ s ∈ dead, ValidState n j k s
  deadNotTarget : ∀ s ∈ dead, s ≠ (n, j, k)
  deadNodup : dead.Nodup
  closed : ∀ s ∈ dead, ∀ t, Step n j k prices calories s t →
    t ∈ dead ∨ t ∈ triples stack
  origin : (0, 0, 0) ∈ dead ∨ (0, 0, 0) ∈ triples stack
  height : stack.length ≤
    3 * (1 + (dead.filter (fun s => decide (s.1 < n))).length)

/-- Decreasing measure of the search loop: each iteration either shrinks the
stack by one state or marks one more cell `BadPath`, of which there are at
most `(n+1) * (j+1) * (k+1)`. -/
def searchMeasure (n j k : Int) (stack : List Int) (dead : List State) : ℕ :=
  4 * ((n + 1).toNat * ((j + 1).toNat * (k + 1).toNat) - dead.length) +
    stack.length

theorem triples_cons (x y z : Int) (rest : List Int) :
    triples (x :: y :: z :: rest) = (x, y, z) :: triples rest := rfl

theorem solveStep_nil (swap : Bool) (n j k : Int) (prices calories : List Int)
    (dead : List State) :
    solveStep swap n j k prices calories [] dead = some (Sum.inr false) := rfl

theorem solveStep_one (swap : Bool) (n j k : Int) (prices calories : List Int)
    (x : Int) (dead : List State) :
    solveStep swap n j k prices calories [x] dead = none := rfl

theorem solveStep_two (swap : Bool) (n j k : Int) (prices calories : List Int)
    (x y : Int) (dead : List State) :
    solveStep swap n j k prices calories [x, y] dead = none := rfl

theorem solveStep_target {swap : Bool} {n j k : Int} {prices calories : List Int}
    {x y z : Int} {rest : List Int} {dead : List State}
    (h : x = n ∧ y = j ∧ z = k) :
    solveStep swap n j k prices calories (x :: y :: z :: rest) dead =
      some (Sum.inr true) := by
  simp [solveStep, h.1, h.2.1, h.2.2]

theorem solveStep_deadhit {swap : Bool} {n j k : Int} {prices calories : List Int}
    {x y z : Int} {rest : List Int} {dead : List State}
    (hne : ¬(x = n ∧ y = j ∧ z = k)) (hd : (x, y, z) ∈ dead) :
    solveStep swap n j k prices calories (x :: y :: z :: rest) dead =
      some (Sum.inl (rest, dead)) := by
  simp [solveStep, hne, table_get, hd]

theorem solveStep_expand {swap : Bool} {n j k : Int} {prices calories : List Int}
    {x y z : Int} {rest : List Int} {dead : List State}
    (hne : ¬(x = n ∧ y = j ∧ z = k)) (hd : (x, y, z) ∉ dead) :
    solveStep swap n j k prices calories (x :: y :: z :: rest) dead =
      some (Sum.inl (expandStack swap n j k prices calories x y z rest,
        (x, y, z) :: dead)) := by
  have htab : ¬ table_get dead (x, y, z) = memo_item.BadPath := by
    simp [table_get, hd]
  simp only [solveStep, expandStack, dfs_stack_push, if_neg hne, if_neg htab]
  generalize prices.getD x.toNat 0 = P
  generalize calories.getD x.toNat 0 = C
  by_cases hbn : x + 1 ≤ n
  · by_cases hbuy : y + P ≤ j ∧ z + C ≤ k
    · cases swap <;> simp [hbn, hbuy]
    · cases swap <;> simp [hbn, hbuy]
  · simp [hbn]

theorem mem_triples_expandStack {swap : Bool} {n j k : Int}
    {prices calories : List Int} {x y z : Int} {rest : List Int} {s : State} :
    s ∈ triples (expandStack swap n j k prices calories x y z rest) ↔
      (x + 1 ≤ n ∧ s = (x + 1, y, z)) ∨
      (x + 1 ≤ n ∧ y + prices.getD x.toNat 0 ≤ j ∧
        z + calories.getD x.toNat 0 ≤ k ∧
        s = (x + 1, y + prices.getD x.toNat 0, z + calories.getD x.toNat 0)) ∨
      s ∈ triples rest := by
  unfold expandStack
  generalize prices.getD x.toNat 0 = P
  generalize calories.getD x.toNat 0 = C
  by_cases hbn : x + 1 ≤ n
  · by_cases hbuy : y + P ≤ j ∧ z + C ≤ k
    · cases swap
      · simp [hbn, hbuy, triples_cons]
      · simp [hbn, hbuy, triples_cons]
        tauto
    · simp only [if_pos hbn, if_neg hbuy, triples_cons, List.mem_cons]
      tauto
  · simp only [if_neg hbn]
    tauto

theorem length_expandStack_le {swap : Bool} {n j k : Int}
    {prices calories : List Int} {x y z : Int} {rest : List Int} :
    (expandStack swap n j k prices calories x y z rest).length ≤ rest.length + 6 := by
  unfold expandStack
  generalize prices.getD x.toNat 0 = P
  generalize calories.getD x.toNat 0 = C
  by_cases hbn : x + 1 ≤ n
  · by_cases hbuy : y + P ≤ j ∧ z + C ≤ k
    · cases swap <;> simp [hbn, hbuy]
    · simp only [if_pos hbn, if_neg hbuy, List.length_cons]
      omega
  · simp [hbn]

theorem length_expandStack_mod {swap : Bool} {n j k : Int}
    {prices calories : List Int} {x y z : Int} {rest : List Int} :
    (expandStack swap n j k prices calories x y z rest).length % 3 =
      rest.length % 3 := by
  unfold expandStack
  generalize prices.getD x.toNat 0 = P
  generalize calories.getD x.toNat 0 = C
  by_cases hbn : x + 1 ≤ n
  · by_cases hbuy : y + P ≤ j ∧ z + C ≤ k
    · cases swap <;> simp [hbn, hbuy] <;> omega
    · simp only [if_pos hbn, if_neg hbuy, List.length_cons]
      omega
  · simp [hbn]

theorem expandStack_of_last (swap : Bool) {n : Int} (j k : Int)
    (prices calories : List Int) {x : Int} (y z : Int) (rest : List Int)
    (h : ¬ x + 1 ≤ n) :
    expandStack swap n j k prices calories x y z rest = rest := by
  simp [expandStack, h]

theorem getD_nonneg {arr : List Int} (hall : ∀ p ∈ arr, 0 ≤ p) (i : ℕ) :
    0 ≤ arr.getD i 0 := by
  rcases Nat.lt_or_ge i arr.length with h | h
  · rw [List.getD_eq_getElem _ _ h]
    exact hall _ (List.getElem_mem h)
  · rw [List.getD_eq_default _ _ h]

theorem inv_init {n j k : Int} (prices calories : List Int)
    (hn : 0 ≤ n) (hj : 0 ≤ j) (hk : 0 ≤ k) :
    Inv n j k prices calories [0, 0, 0] [] := by
  refine ⟨rfl, ?_, ?_, ?_, ?_, ?_, ?_, ?_, ?_⟩
  · intro s hs
    have : s = ((0 : Int), (0 : Int), (0 : Int)) := by
      simpa [triples] using hs
    subst this
    exact ⟨le_refl 0, hn, le_refl 0, hj, le_refl 0, hk⟩
  · intro s hs
    have : s = ((0 : Int), (0 : Int), (0 : Int)) := by
      simpa [triples] using hs
    subst this
    exact Relation.ReflTransGen.refl
  · intro s hs; simp at hs
  · intro s hs; simp at hs
  · simp
  · intro s hs; simp at hs
  · right
    simp [triples]
  · simp

theorem inv_step {swap : Bool} {n j k : Int} {prices calories : List Int}
    (hppos : ∀ p ∈ prices, 0 ≤ p) (hcpos : ∀ c ∈ calories, 0 ≤ c)
    {stack : List Int} {dead : List State} {stack' : List Int} {dead' : List State}
    (hinv : Inv n j k prices calories stack dead)
    (hstep : solveStep swap n j k prices calories stack dead =
      some (Sum.inl (stack', dead'))) :
    Inv n j k prices calories stack' dead' := by
  rcases stack with _ | ⟨x, _ | ⟨y, _ | ⟨z, rest⟩⟩⟩
  · rw [solveStep_nil] at hstep
    simp at hstep
  · have := hinv.len3
    simp at this
  · have := hinv.len3
    simp at this
  by_cases htgt : x = n ∧ y = j ∧ z = k
  · rw [solveStep_target htgt] at hstep
    simp at hstep
  have hxyz_mem : (x, y, z) ∈ triples (x :: y :: z :: rest) := by
    rw [triples_cons]; exact List.mem_cons_self _ _
  have hxyzV : ValidState n j k (x, y, z) := hinv.stackValid _ hxyz_mem
  have hxyzR : Reachable n j k prices calories (x, y, z) := hinv.stackReach _ hxyz_mem
  have hlen : rest.length % 3 = 0 := by
    have := hinv.len3
    simp only [List.length_cons] at this
    omega
  by_cases hd : (x, y, z) ∈ dead
  · -- memoized hit: the state is discarded, nothing else changes
    rw [solveStep_deadhit htgt hd] at hstep
    obtain ⟨rfl, rfl⟩ : rest = stack' ∧ dead = dead' := by simpa using hstep
    refine ⟨hlen, ?_, ?_, hinv.deadValid, hinv.deadNotTarget, hinv.deadNodup,
      ?_, ?_, ?_⟩
    · intro s hs
      exact hinv.stackValid s (by rw [triples_cons]; exact List.mem_cons_of_mem _ hs)
    · intro s hs
      exact hinv.stackReach s (by rw [triples_cons]; exact List.mem_cons_of_mem _ hs)
    · intro s hsd t hst
      rcases hinv.closed s hsd t hst with h | h
      · exact Or.inl h
      · rw [triples_cons] at h
        rcases List.mem_cons.mp h with h | h
        · exact Or.inl (h ▸ hd)
        · exact Or.inr h
    · rcases hinv.origin with h | h
      · exact Or.inl h
      · rw [triples_cons] at h
        rcases List.mem_cons.mp h with h | h
        · exact Or.inl (h ▸ hd)
        · exact Or.inr h
    · have := hinv.height
      simp only [List.length_cons] at this
      omega
  · -- expansion: successors are pushed, the state is marked BadPath
    rw [solveStep_expand htgt hd] at hstep
    obtain ⟨hs', hdd'⟩ :
        expandStack swap n j k prices calories x y z rest = stack' ∧
          (x, y, z) :: dead = dead' := by simpa using hstep
    subst hs'; subst hdd'
    obtain ⟨hx0, hxn, hy0, hyj, hz0, hzk⟩ := hxyzV
    have hx0 : 0 ≤ x := hx0
    have hxn : x ≤ n := hxn
    have hy0 : 0 ≤ y := hy0
    have hyj : y ≤ j := hyj
    have hz0 : 0 ≤ z := hz0
    have hzk : z ≤ k := hzk
    have hPnn : 0 ≤ prices.getD x.toNat 0 := getD_nonneg hppos _
    have hCnn : 0 ≤ calories.getD x.toNat 0 := getD_nonneg hcpos _
    refine ⟨?_, ?_, ?_, ?_, ?_, ?_, ?_, ?_, ?_⟩
    · rw [length_expandStack_mod]
      exact hlen
    · intro s hs
      rcases mem_triples_expandStack.mp hs with ⟨hbn, rfl⟩ | ⟨hbn, h1, h2, rfl⟩ | h
      · refine ⟨?_, hbn, hy0, hyj, hz0, hzk⟩
        show 0 ≤ x + 1
        omega
      · refine ⟨?_, hbn, ?_, h1, ?_, h2⟩
        · show 0 ≤ x + 1
          omega
        · show 0 ≤ y + prices.getD x.toNat 0
          omega
        · show 0 ≤ z + calories.getD x.toNat 0
          omega
      · exact hinv.stackValid s (by rw [triples_cons]; exact List.mem_cons_of_mem _ h)
    · intro s hs
      rcases mem_triples_expandStack.mp hs with ⟨hbn, rfl⟩ | ⟨hbn, h1, h2, rfl⟩ | h
      · exact Relation.ReflTransGen.tail hxyzR (Step.skip hbn)
      · exact Relation.ReflTransGen.tail hxyzR (Step.buy hbn h1 h2)
      · exact hinv.stackReach s (by rw [triples_cons]; exact List.mem_cons_of_mem _ h)
    · intro s hs
      rcases List.mem_cons.mp hs with rfl | hs
      · exact ⟨hx0, hxn, hy0, hyj, hz0, hzk⟩
      · exact hinv.deadValid s hs
    · intro s hs
      rcases List.mem_cons.mp hs with rfl | hs
      · intro hcon
        exact htgt ⟨congrArg Prod.fst hcon,
          congrArg (fun t => t.2.1) hcon, congrArg (fun t => t.2.2) hcon⟩
      · exact hinv.deadNotTarget s hs
    · exact List.nodup_cons.mpr ⟨hd, hinv.deadNodup⟩
    · intro s hsd t hst
      rcases List.mem_cons.mp hsd with rfl | hsd
      · cases hst with
        | buy hbn h1 h2 =>
            exact Or.inr (mem_triples_expandStack.mpr
              (Or.inr (Or.inl ⟨hbn, h1, h2, rfl⟩)))
        | skip hbn =>
            exact Or.inr (mem_triples_expandStack.mpr (Or.inl ⟨hbn, rfl⟩))
      · rcases hinv.closed s hsd t hst with h | h
        · exact Or.inl (List.mem_cons_of_mem _ h)
        · rw [triples_cons] at h
          rcases List.mem_cons.mp h with h | h
          · exact Or.inl (h ▸ List.mem_cons_self _ _)
          · exact Or.inr (mem_triples_expandStack.mpr (Or.inr (Or.inr h)))
    · rcases hinv.origin with h | h
      · exact Or.inl (List.mem_cons_of_mem _ h)
      · rw [triples_cons] at h
        rcases List.mem_cons.mp h with h | h
        · exact Or.inl (h ▸ List.mem_cons_self _ _)
        · exact Or.inr (mem_triples_expandStack.mpr (Or.inr (Or.inr h)))
    · have hh := hinv.height
      simp only [List.length_cons] at hh
      have hle := @length_expandStack_le swap n j k prices calories x y z rest
      rw [List.filter_cons]
      by_cases hxn' : x + 1 ≤ n
      · have hdec : decide ((x, y, z).1 < n) = true := by
          simp only [decide_eq_true_eq]
          omega
        rw [if_pos hdec]
        simp only [List.length_cons]
        omega
      · have hdec : ¬ decide ((x, y, z).1 < n) = true := by
          simp only [decide_eq_true_eq]
          omega
        rw [expandStack_of_last swap j k prices calories y z rest hxn', if_neg hdec]
        omega

theorem length_le_of_valid_nodup {b j k : Int} {l : List State} (hnd : l.Nodup)
    (hval : ∀ s ∈ l, 0 ≤ s.1 ∧ s.1 ≤ b ∧ 0 ≤ s.2.1 ∧ s.2.1 ≤ j ∧
      0 ≤ s.2.2 ∧ s.2.2 ≤ k) :
    l.length ≤ (b + 1).toNat * ((j + 1).toNat * (k + 1).toNat) := by
  classical
  have hsub : l.toFinset ⊆
      (Finset.Icc (0 : ℤ) b) ×ˢ ((Finset.Icc (0 : ℤ) j) ×ˢ (Finset.Icc (0 : ℤ) k)) := by
    intro s hs
    obtain ⟨h1, h2, h3, h4, h5, h6⟩ := hval s (List.mem_toFinset.mp hs)
    exact Finset.mem_product.mpr ⟨Finset.mem_Icc.mpr ⟨h1, h2⟩,
      Finset.mem_product.mpr ⟨Finset.mem_Icc.mpr ⟨h3, h4⟩, Finset.mem_Icc.mpr ⟨h5, h6⟩⟩⟩
  have hcard := Finset.card_le_card hsub
  rw [List.toFinset_card_of_nodup hnd] at hcard
  simpa [Finset.card_product, Int.card_Icc] using hcard

theorem not_reachable_of_empty {n j k : Int} {prices calories : List Int}
    {dead : List State}
    (hinv : Inv n j k prices calories [] dead) :
    ¬ Reachable n j k prices calories (n, j, k) := by
  have hmem : ∀ s, Reachable n j k prices calories s → s ∈ dead := by
    intro s hs
    induction hs with
    | refl =>
        rcases hinv.origin with h | h
        · exact h
        · simp [triples] at h
    | tail hab hbc ih =>
        rcases hinv.closed _ ih _ hbc with h | h
        · exact h
        · simp [triples] at h
  intro hr
  exact hinv.deadNotTarget _ (hmem _ hr) rfl

theorem solveStep_classify {swap : Bool} {n j k : Int} {prices calories : List Int}
    (hppos : ∀ p ∈ prices, 0 ≤ p) (hcpos : ∀ c ∈ calories, 0 ≤ c)
    {stack : List Int} {dead : List State}
    (hinv : Inv n j k prices calories stack dead) :
    (stack = [] ∧
      solveStep swap n j k prices calories stack dead = some (Sum.inr false)) ∨
    (solveStep swap n j k prices calories stack dead = some (Sum.inr true) ∧
      Reachable n j k prices calories (n, j, k)) ∨
    (∃ stack' dead',
      solveStep swap n j k prices calories stack dead =
        some (Sum.inl (stack', dead')) ∧
      Inv n j k prices calories stack' dead' ∧
      searchMeasure n j k stack' dead' < searchMeasure n j k stack dead) := by
  rcases stack with _ | ⟨x, _ | ⟨y, _ | ⟨z, rest⟩⟩⟩
  · exact Or.inl ⟨rfl, solveStep_nil swap n j k prices calories dead⟩
  · have := hinv.len3
    simp at this
  · have := hinv.len3
    simp at this
  by_cases htgt : x = n ∧ y = j ∧ z = k
  · refine Or.inr (Or.inl ⟨solveStep_target htgt, ?_⟩)
    obtain ⟨rfl, rfl, rfl⟩ := htgt
    exact hinv.stackReach _ (by rw [triples_cons]; exact List.mem_cons_self _ _)
  by_cases hd : (x, y, z) ∈ dead
  · refine Or.inr (Or.inr ⟨rest, dead, solveStep_deadhit htgt hd, ?_, ?_⟩)
    · exact @inv_step swap n j k prices calories hppos hcpos _ _ _ _ hinv
        (solveStep_deadhit htgt hd)
    · simp only [searchMeasure, List.length_cons]
      omega
  · refine Or.inr (Or.inr ⟨expandStack swap n j k prices calories x y z rest,
      (x, y, z) :: dead, solveStep_expand htgt hd, ?_, ?_⟩)
    · exact @inv_step swap n j k prices calories hppos hcpos _ _ _ _ hinv
        (solveStep_expand htgt hd)
    · have hinv' := @inv_step swap n j k prices calories hppos hcpos _ _ _ _ hinv
        (solveStep_expand htgt hd)
      have hcount : ((x, y, z) :: dead).length ≤
          (n + 1).toNat * ((j + 1).toNat * (k + 1).toNat) := by
        refine length_le_of_valid_nodup hinv'.deadNodup ?_
        intro s hs
        exact hinv'.deadValid s hs
      have hle := @length_expandStack_le swap n j k prices calories x y z rest
      simp only [searchMeasure, List.length_cons] at *
      omega

theorem solveLoop_sound {swap : Bool} {n j k : Int} {prices calories : List Int}
    (hppos : ∀ p ∈ prices, 0 ≤ p) (hcpos : ∀ c ∈ calories, 0 ≤ c) :
    ∀ (fuel : ℕ) {stack : List Int} {dead : List State},
      Inv n j k prices calories stack dead →
      solveLoop swap n j k prices calories fuel stack dead = some true →
      Reachable n j k prices calories (n, j, k) := by
  intro fuel
  induction fuel with
  | zero =>
      intro stack dead _ h
      simp [solveLoop] at h
  | succ f ih =>
      intro stack dead hinv h
      rcases solveStep_classify hppos hcpos hinv with
        ⟨hnil, hstep⟩ | ⟨hstep, hreach⟩ | ⟨stack', dead', hstep, hinv', _⟩
      · rw [solveLoop, hstep] at h
        simp at h
      · exact hreach
      · rw [solveLoop, hstep] at h
        exact ih hinv' h

theorem solveLoop_complete {swap : Bool} {n j k : Int} {prices calories : List Int}
    (hppos : ∀ p ∈ prices, 0 ≤ p) (hcpos : ∀ c ∈ calories, 0 ≤ c) :
    ∀ (fuel : ℕ) {stack : List Int} {dead : List State},
      Inv n j k prices calories stack dead →
      solveLoop swap n j k prices calories fuel stack dead = some false →
      ¬ Reachable n j k prices calories (n, j, k) := by
  intro fuel
  induction fuel with
  | zero =>
      intro stack dead _ h
      simp [solveLoop] at h
  | succ f ih =>
      intro stack dead hinv h
      rcases solveStep_classify hppos hcpos hinv with
        ⟨hnil, hstep⟩ | ⟨hstep, hreach⟩ | ⟨stack', dead', hstep, hinv', _⟩
      · subst hnil
        exact not_reachable_of_empty hinv
      · rw [solveLoop, hstep] at h
        simp at h
      · rw [solveLoop, hstep] at h
        exact ih hinv' h

theorem solveLoop_total {swap : Bool} {n j k : Int} {prices calories : List Int}
    (hppos : ∀ p ∈ prices, 0 ≤ p) (hcpos : ∀ c ∈ calories, 0 ≤ c) :
    ∀ (fuel : ℕ) {stack : List Int} {dead : List State},
      Inv n j k prices calories stack dead →
      searchMeasure n j k stack dead < fuel →
      ∃ b, solveLoop swap n j k prices calories fuel stack dead = some b := by
  intro fuel
  induction fuel with
  | zero =>
      intro stack dead _ h
      omega
  | succ f ih =>
      intro stack dead hinv hm
      rcases solveStep_classify hppos hcpos hinv with
        ⟨hnil, hstep⟩ | ⟨hstep, hreach⟩ | ⟨stack', dead', hstep, hinv', hdec⟩
      · exact ⟨false, by rw [solveLoop, hstep]⟩
      · exact ⟨true, by rw [solveLoop, hstep]⟩
      · have : searchMeasure n j k stack' dead' < f := by omega
        obtain ⟨b, hb⟩ := ih hinv' this
        exact ⟨b, by rw [solveLoop, hstep]; exact hb⟩

theorem solveRun_true_iff (swap : Bool) {n j k : Int} {prices calories : List Int}
    (hv : ValidInput n j k prices calories) :
    (solveLoop swap n j k prices calories (solveFuel n j k) [0, 0, 0] [] =
        some true) ↔
      Reachable n j k prices calories (n, j, k) := by
  obtain ⟨hn, hj, hk, _, _, _, hplen, hclen, hppos, hcpos⟩ := hv
  have hinv := inv_init prices calories hn hj hk
  constructor
  · intro h
    exact solveLoop_sound hppos hcpos _ hinv h
  · intro h
    obtain ⟨b, hb⟩ := solveLoop_total hppos hcpos (solveFuel n j k) hinv
      (by simp [searchMeasure, solveFuel])
    cases b
    · exact absurd h (solveLoop_complete hppos hcpos _ hinv hb)
    · exact hb

theorem solveRun_some (swap : Bool) {n j k : Int} {prices calories : List Int}
    (hv : ValidInput n j k prices calories) :
    ∃ b, solveLoop swap n j k prices calories (solveFuel n j k) [0, 0, 0] [] =
      some b := by
  obtain ⟨hn, hj, hk, _, _, _, hplen, hclen, hppos, hcpos⟩ := hv
  exact solveLoop_total hppos hcpos (solveFuel n j k)
    (inv_init prices calories hn hj hk) (by simp [searchMeasure, solveFuel])

theorem solve_def (n j k : Int) (prices calories : List Int) :
    solve n j k prices calories =
      solveLoop false n j k prices calories (solveFuel n j k) [0, 0, 0] [] := rfl

theorem solveSwapped_def (n j k : Int) (prices calories : List Int) :
    solveSwapped n j k prices calories =
      solveLoop true n j k prices calories (solveFuel n j k) [0, 0, 0] [] := rfl

theorem chosenSum_nil (arr : List Int) : chosenSum arr [] = 0 := rfl

theorem chosenSum_snoc {arr : List Int} {bs : List Bool} (b : Bool)
    (h : bs.length < arr.length) :
    chosenSum arr (bs ++ [b]) =
      chosenSum arr bs + (if b then arr.getD bs.length 0 else 0) := by
  induction bs generalizing arr with
  | nil =>
      cases arr with
      | nil => simp at h
      | cons a arr => cases b <;> simp [chosenSum]
  | cons hd tl ih =>
      cases arr with
      | nil => simp at h
      | cons a arr =>
          have h' : tl.length < arr.length := by
            simpa using h
          simp only [List.cons_append, chosenSum, List.zipWith_cons_cons,
            List.sum_cons] at *
          rw [ih h']
          simp [List.getD_cons_succ, add_assoc]

theorem reachable_choice {n j k : Int} {prices calories : List Int}
    (hj : 0 ≤ j) (hk : 0 ≤ k) (hplen : prices.length = n.toNat)
    (hclen : calories.length = n.toNat)
    {s : State} (hs : Reachable n j k prices calories s) :
    ∃ bs : List Bool, (bs.length : Int) = s.1 ∧
      (∀ m, m ≤ bs.length →
        chosenSum prices (bs.take m) ≤ j ∧ chosenSum calories (bs.take m) ≤ k) ∧
      chosenSum prices bs = s.2.1 ∧ chosenSum calories bs = s.2.2 := by
  induction hs with
  | refl =>
      refine ⟨[], by simp, ?_, rfl, rfl⟩
      intro m hm
      have hm0 : m = 0 := by simpa using hm
      subst hm0
      exact ⟨hj, hk⟩
  | tail hab hbc ih =>
      obtain ⟨bs, hlen, hpref, hsp, hsc⟩ := ih
      cases hbc with
      | buy hbn h1 h2 =>
          rename_i x y z
          have hlen : (bs.length : Int) = x := hlen
          have hsp : chosenSum prices bs = y := hsp
          have hsc : chosenSum calories bs = z := hsc
          have hxlen : bs.length = x.toNat := by omega
          have hplt : bs.length < prices.length := by omega
          have hclt : bs.length < calories.length := by omega
          have hsp' : chosenSum prices (bs ++ [true]) =
              y + prices.getD x.toNat 0 := by
            rw [chosenSum_snoc true hplt, hsp, if_pos rfl, hxlen]
          have hsc' : chosenSum calories (bs ++ [true]) =
              z + calories.getD x.toNat 0 := by
            rw [chosenSum_snoc true hclt, hsc, if_pos rfl, hxlen]
          refine ⟨bs ++ [true], ?_, ?_, hsp', hsc'⟩
          · simp only [List.length_append, List.length_cons, List.length_nil]
            push_cast
            omega
          · intro m hm
            simp only [List.length_append, List.length_cons, List.length_nil] at hm
            rcases Nat.lt_or_ge m (bs.length + 1) with hlt | hge
            · have hmle : m ≤ bs.length := by omega
              rw [List.take_append_of_le_length hmle]
              exact hpref m hmle
            · have hm1 : m = bs.length + 1 := by omega
              subst hm1
              rw [List.take_of_length_le (by simp)]
              constructor
              · rw [hsp']; exact h1
              · rw [hsc']; exact h2
      | skip hbn =>
          rename_i x y z
          have hlen : (bs.length : Int) = x := hlen
          have hsp : chosenSum prices bs = y := hsp
          have hsc : chosenSum calories bs = z := hsc
          have hplt : bs.length < prices.length := by omega
          have hclt : bs.length < calories.length := by omega
          have hsp' : chosenSum prices (bs ++ [false]) = y := by
            rw [chosenSum_snoc false hplt, hsp, if_neg (by simp), add_zero]
          have hsc' : chosenSum calories (bs ++ [false]) = z := by
            rw [chosenSum_snoc false hclt, hsc, if_neg (by simp), add_zero]
          refine ⟨bs ++ [false], ?_, ?_, hsp', hsc'⟩
          · simp only [List.length_append, List.length_cons, List.length_nil]
            push_cast
            omega
          · intro m hm
            simp only [List.length_append, List.length_cons, List.length_nil] at hm
            rcases Nat.lt_or_ge m (bs.length + 1) with hlt | hge
            · have hmle : m ≤ bs.length := by omega
              rw [List.take_append_of_le_length hmle]
              exact hpref m hmle
            · have hm1 : m = bs.length + 1 := by omega
              subst hm1
              rw [List.take_of_length_le (by simp)]
              constructor
              · rw [hsp']
                have := (hpref bs.length (le_refl _))
                rw [List.take_length] at this
                exact hsp ▸ this.1
              · rw [hsc']
                have := (hpref bs.length (le_refl _))
                rw [List.take_length] at this
                exact hsc ▸ this.2

theorem choice_reachable {n j k : Int} {prices calories : List Int}
    (hn : 0 ≤ n) (hplen : prices.length = n.toNat)
    (hclen : calories.length = n.toNat)
    (bs : List Bool) (hbslen : bs.length ≤ n.toNat)
    (hpref : ∀ m, m ≤ bs.length →
      chosenSum prices (bs.take m) ≤ j ∧ chosenSum calories (bs.take m) ≤ k) :
    Reachable n j k prices calories
      ((bs.length : Int), chosenSum prices bs, chosenSum calories bs) := by
  induction bs using List.reverseRecOn with
  | nil => exact Relation.ReflTransGen.refl
  | append_singleton bs b ih =>
      simp only [List.length_append, List.length_cons, List.length_nil] at hbslen
      have hbs : bs.length ≤ n.toNat := by omega
      have hplt : bs.length < prices.length := by omega
      have hclt : bs.length < calories.length := by omega
      have hpref' : ∀ m, m ≤ bs.length →
          chosenSum prices (bs.take m) ≤ j ∧ chosenSum calories (bs.take m) ≤ k := by
        intro m hm
        have := hpref m (by simp; omega)
        rwa [List.take_append_of_le_length hm] at this
      have hreach := ih hbs hpref'
      have hstep1 : ((bs.length : Int)) + 1 ≤ n := by omega
      have htoNat : ((bs.length : Int)).toNat = bs.length := Int.toNat_natCast _
      have hfull := hpref (bs.length + 1) (by simp)
      rw [List.take_of_length_le (by simp)] at hfull
      cases b with
      | true =>
          have hsum_p : chosenSum prices (bs ++ [true]) =
              chosenSum prices bs + prices.getD bs.length 0 := by
            rw [chosenSum_snoc true hplt, if_pos rfl]
          have hsum_c : chosenSum calories (bs ++ [true]) =
              chosenSum calories bs + calories.getD bs.length 0 := by
            rw [chosenSum_snoc true hclt, if_pos rfl]
          have hstep : Step n j k prices calories
              ((bs.length : Int), chosenSum prices bs, chosenSum calories bs)
              ((bs.length : Int) + 1,
                chosenSum prices bs + prices.getD ((bs.length : Int)).toNat 0,
                chosenSum calories bs + calories.getD ((bs.length : Int)).toNat 0) :=
            Step.buy hstep1 (by rw [htoNat, ← hsum_p]; exact hfull.1)
              (by rw [htoNat, ← hsum_c]; exact hfull.2)
          rw [htoNat] at hstep
          have hlen' : (((bs ++ [true]).length : ℕ) : Int) = (bs.length : Int) + 1 := by
            simp
          rw [hlen', hsum_p, hsum_c]
          exact Relation.ReflTransGen.tail hreach hstep
      | false =>
          have hsum_p : chosenSum prices (bs ++ [false]) = chosenSum prices bs := by
            rw [chosenSum_snoc false hplt, if_neg (by simp), add_zero]
          have hsum_c : chosenSum calories (bs ++ [false]) =
              chosenSum calories bs := by
            rw [chosenSum_snoc false hclt, if_neg (by simp), add_zero]
          have hstep : Step n j k prices calories
              ((bs.length : Int), chosenSum prices bs, chosenSum calories bs)
              ((bs.length : Int) + 1, chosenSum prices bs, chosenSum calories bs) :=
            Step.skip hstep1
          have hlen' : (((bs ++ [false]).length : ℕ) : Int) = (bs.length : Int) + 1 := by
            simp
          rw [hlen', hsum_p, hsum_c]
          exact Relation.ReflTransGen.tail hreach hstep

theorem reachable_iff_specSat {n j k : Int} {prices calories : List Int}
    (hv : ValidInput n j k prices calories) :
    Reachable n j k prices calories (n, j, k) ↔ SpecSat n j k prices calories := by
  obtain ⟨hn, hj, hk, _, _, _, hplen, hclen, hppos, hcpos⟩ := hv
  constructor
  · intro h
    obtain ⟨bs, hlen, hpref, hsp, hsc⟩ := reachable_choice hj hk hplen hclen h
    have hlen : (bs.length : Int) = n := hlen
    have hsp : chosenSum prices bs = j := hsp
    have hsc : chosenSum calories bs = k := hsc
    have hlen' : bs.length = n.toNat := by omega
    exact ⟨bs, hlen', fun m hm => hpref m (by omega), hsp, hsc⟩
  · rintro ⟨bs, hlen, hpref, hsp, hsc⟩
    have h := choice_reachable hn hplen hclen bs (le_of_eq hlen)
      (fun m hm => hpref m (by omega))
    have hcast : ((bs.length : ℕ) : Int) = n := by omega
    rw [hcast, hsp, hsc] at h
    exact h

theorem chosenSum_zero {arr : List Int} (h : ∀ p ∈ arr, p = 0) :
    ∀ bs : List Bool, chosenSum arr bs = 0 := by
  induction arr with
  | nil =>
      intro bs
      cases bs with
      | nil => rfl
      | cons b bs => rfl
  | cons a arr ih =>
      intro bs
      cases bs with
      | nil => rfl
      | cons b bs =>
          have ha : a = 0 := h a (List.mem_cons_self _ _)
          have ih' := ih (fun p hp => h p (List.mem_cons_of_mem _ hp)) bs
          simp only [chosenSum, List.zipWith_cons_cons, List.sum_cons] at *
          rw [ih', ha]
          cases b <;> simp

theorem solveStep_dead_mono {swap : Bool} {n j k : Int}
    {prices calories : List Int} {stack : List Int} {dead : List State}
    {stack' : List Int} {dead' : List State}
    (h : solveStep swap n j k prices calories stack dead =
      some (Sum.inl (stack', dead'))) :
    ∀ s ∈ dead, s ∈ dead' := by
  rcases stack with _ | ⟨x, _ | ⟨y, _ | ⟨z, rest⟩⟩⟩
  · rw [solveStep_nil] at h
    simp at h
  · rw [solveStep_one] at h
    simp at h
  · rw [solveStep_two] at h
    simp at h
  by_cases htgt : x = n ∧ y = j ∧ z = k
  · rw [solveStep_target htgt] at h
    simp at h
  by_cases hd : (x, y, z) ∈ dead
  · rw [solveStep_deadhit htgt hd] at h
    obtain ⟨-, rfl⟩ : rest = stack' ∧ dead = dead' := by simpa using h
    exact fun s hs => hs
  · rw [solveStep_expand htgt hd] at h
    obtain ⟨-, hdd⟩ :
        expandStack swap n j k prices calories x y z rest = stack' ∧
          (x, y, z) :: dead = dead' := by simpa using h
    subst hdd
    exact fun s hs => List.mem_cons_of_mem _ hs

theorem loopSteps_inv {swap : Bool} {n j k : Int} {prices calories : List Int}
    (hn : 0 ≤ n) (hj : 0 ≤ j) (hk : 0 ≤ k)
    (hppos : ∀ p ∈ prices, 0 ≤ p) (hcpos : ∀ c ∈ calories, 0 ≤ c)
    {cfg : List Int × List State}
    (hreach : LoopSteps swap n j k prices calories initCfg cfg) :
    Inv n j k prices calories cfg.1 cfg.2 := by
  induction hreach with
  | refl => exact inv_init prices calories hn hj hk
  | tail hab hbc ih =>
      exact @inv_step swap n j k prices calories hppos hcpos _ _ _ _ ih hbc

theorem solve_true_iff {n j k : Int} {prices calories : List Int}
    (hv : ValidInput n j k prices calories) :
    (solve n j k prices calories = some true) ↔ SpecSat n j k prices calories := by
  rw [solve_def, solveRun_true_iff false hv]
  exact reachable_iff_specSat hv

/-- C1: for every valid input (`n ≤ MAX_DEPTH_X - 1`, targets within the
other two capacities, item arrays of length `n` with non-negative entries,
memo table all `Unknown` and stack empty at entry), `solve` returns `true`
iff there is a 0/1 choice for each item index whose running sums of chosen
prices and calories never exceed `j` and `k` at any prefix and equal exactly
`j` and `k` after all `n` decisions. -/
theorem solve_iff_specSat {n j k : Int} {prices calories : List Int}
    (hv : ValidInput n j k prices calories) :
    (solve n j k prices calories = some true) ↔ SpecSat n j k prices calories :=
  solve_true_iff hv

theorem solve_iff_specSat_witness :
    (solve 1 0 0 [1] [1] = some true) ↔ SpecSat 1 0 0 [1] [1] :=
  solve_iff_specSat (by decide)

/-- C2: for every valid input, the search loop of `solve` terminates and
produces a boolean result (it never runs out of fuel and never underflows a
pop): `solve` returns `some b` for some boolean `b`. -/
theorem solve_terminates {n j k : Int} {prices calories : List Int}
    (hv : ValidInput n j k prices calories) :
    ∃ b, solve n j k prices calories = some b := by
  rw [solve_def]
  exact solveRun_some false hv

theorem solve_terminates_witness : ∃ b, solve 1 2 3 [1] [2] = some b :=
  solve_terminates (by decide)

/-- C3: during any run of `solve` on valid inputs, every configuration the
loop reaches has a stack of complete triples (`length % 3 = 0`, so the three
pops of an iteration all happen with `offset > 0`) and room for a full
expansion (`length + 6 ≤ 3 * MAX_DEPTH_STACK`): the six pushes of the next
iteration write at offsets at most `length + 5 < 3 * MAX_DEPTH_STACK`, so
the stack never overflows its declared capacity and never underflows. -/
theorem stack_no_overflow_underflow {n j k : Int} {prices calories : List Int}
    (hv : ValidInput n j k prices calories)
    {cfg : List Int × List State}
    (hreach : LoopSteps false n j k prices calories initCfg cfg) :
    cfg.1.length % 3 = 0 ∧ cfg.1.length + 6 ≤ 3 * MAX_DEPTH_STACK := by
  obtain ⟨hn, hj, hk, hnX, hjY, hkZ, hplen, hclen, hppos, hcpos⟩ := hv
  have hinv := loopSteps_inv hn hj hk hppos hcpos hreach
  refine ⟨hinv.len3, ?_⟩
  have hfil_nodup : (cfg.2.filter (fun s => decide (s.1 < n))).Nodup :=
    hinv.deadNodup.filter _
  have hfil_val : ∀ s ∈ cfg.2.filter (fun s => decide (s.1 < n)),
      0 ≤ s.1 ∧ s.1 ≤ n - 1 ∧ 0 ≤ s.2.1 ∧ s.2.1 ≤ j ∧
        0 ≤ s.2.2 ∧ s.2.2 ≤ k := by
    intro s hs
    have hmem : s ∈ cfg.2 := (List.mem_filter.mp hs).1
    have hflt : decide (s.1 < n) = true := (List.mem_filter.mp hs).2
    have hlt : s.1 < n := of_decide_eq_true hflt
    obtain ⟨h1, h2, h3, h4, h5, h6⟩ := hinv.deadValid s hmem
    exact ⟨h1, by omega, h3, h4, h5, h6⟩
  have hcount := length_le_of_valid_nodup hfil_nodup hfil_val
  have hsimp : ((n : Int) - 1 + 1) = n := by ring
  rw [hsimp] at hcount
  have hnN : n.toNat ≤ 500 := by
    have hX : (MAX_DEPTH_X : Int) = 501 := by norm_num [MAX_DEPTH_X]
    omega
  have hjN : (j + 1).toNat ≤ 101 := by
    have hY : (MAX_DEPTH_Y : Int) = 101 := by norm_num [MAX_DEPTH_Y]
    omega
  have hkN : (k + 1).toNat ≤ 101 := by
    have hZ : (MAX_DEPTH_Z : Int) = 101 := by norm_num [MAX_DEPTH_Z]
    omega
  have hprod : n.toNat * ((j + 1).toNat * (k + 1).toNat) ≤ 500 * (101 * 101) :=
    Nat.mul_le_mul hnN (Nat.mul_le_mul hjN hkN)
  have hheight := hinv.height
  have hMS : MAX_DEPTH_STACK = 501 * (101 * 101) := by
    norm_num [MAX_DEPTH_STACK, MAX_DEPTH_X, MAX_DEPTH_Y, MAX_DEPTH_Z]
  omega

theorem stack_no_overflow_underflow_witness :
    initCfg.1.length % 3 = 0 ∧ initCfg.1.length + 6 ≤ 3 * MAX_DEPTH_STACK :=
  @stack_no_overflow_underflow 1 0 0 [1] [1] (by decide) initCfg
    Relation.ReflTransGen.refl

/-- C4: on valid inputs, every state `(x, y, z)` sitting on the stack of any
configuration the loop of `solve` reaches — in particular every popped state
— satisfies `0 ≤ x ≤ n`, `0 ≤ y ≤ j`, `0 ≤ z ≤ k`, so with the capacity
bounds every read and write of `table[x][y][z]` is within the
`MAX_DEPTH_X × MAX_DEPTH_Y × MAX_DEPTH_Z` bounds of the memo table. -/
theorem popped_states_in_bounds {n j k : Int} {prices calories : List Int}
    (hv : ValidInput n j k prices calories)
    {cfg : List Int × List State}
    (hreach : LoopSteps false n j k prices calories initCfg cfg) :
    ∀ x y z : Int, (x, y, z) ∈ triples cfg.1 →
      0 ≤ x ∧ x ≤ n ∧ 0 ≤ y ∧ y ≤ j ∧ 0 ≤ z ∧ z ≤ k ∧
        x < (MAX_DEPTH_X : Int) ∧ y < (MAX_DEPTH_Y : Int) ∧
        z < (MAX_DEPTH_Z : Int) := by
  obtain ⟨hn, hj, hk, hnX, hjY, hkZ, hplen, hclen, hppos, hcpos⟩ := hv
  have hinv := loopSteps_inv hn hj hk hppos hcpos hreach
  intro x y z hm
  obtain ⟨h1, h2, h3, h4, h5, h6⟩ := hinv.stackValid _ hm
  have h1 : 0 ≤ x := h1
  have h2 : x ≤ n := h2
  have h3 : 0 ≤ y := h3
  have h4 : y ≤ j := h4
  have h5 : 0 ≤ z := h5
  have h6 : z ≤ k := h6
  have hX : (MAX_DEPTH_X : Int) = 501 := by norm_num [MAX_DEPTH_X]
  have hY : (MAX_DEPTH_Y : Int) = 101 := by norm_num [MAX_DEPTH_Y]
  have hZ : (MAX_DEPTH_Z : Int) = 101 := by norm_num [MAX_DEPTH_Z]
  exact ⟨h1, h2, h3, h4, h5, h6, by omega, by omega, by omega⟩

theorem popped_states_in_bounds_witness :
    0 ≤ (0 : Int) ∧ (0 : Int) ≤ 1 ∧ 0 ≤ (0 : Int) ∧ (0 : Int) ≤ 0 ∧
      0 ≤ (0 : Int) ∧ (0 : Int) ≤ 0 ∧ (0 : Int) < (MAX_DEPTH_X : Int) ∧
      (0 : Int) < (MAX_DEPTH_Y : Int) ∧ (0 : Int) < (MAX_DEPTH_Z : Int) :=
  @popped_states_in_bounds 1 0 0 [1] [1] (by decide) initCfg
    Relation.ReflTransGen.refl 0 0 0 (by decide)

/-- C5: within a single `solve` invocation, cells marked `BadPath` are marked
at most once (the list of marked cells has no duplicates), a marked cell is
never set back to `Unknown` (the marked set only grows along loop steps),
and popping a state already marked `BadPath` discards it without generating
successors and without changing the memo table. -/
theorem dead_states_final {n j k : Int} {prices calories : List Int}
    (hv : ValidInput n j k prices calories)
    {cfg : List Int × List State}
    (hreach : LoopSteps false n j k prices calories initCfg cfg) :
    cfg.2.Nodup ∧
      (∀ cfg', solveStep false n j k prices calories cfg.1 cfg.2 =
          some (Sum.inl cfg') → ∀ s ∈ cfg.2, s ∈ cfg'.2) ∧
      (∀ (x y z : Int) (rest : List Int), cfg.1 = x :: y :: z :: rest →
        (x, y, z) ∈ cfg.2 →
        solveStep false n j k prices calories cfg.1 cfg.2 =
          some (Sum.inl (rest, cfg.2))) := by
  obtain ⟨hn, hj, hk, hnX, hjY, hkZ, hplen, hclen, hppos, hcpos⟩ := hv
  have hinv := loopSteps_inv hn hj hk hppos hcpos hreach
  refine ⟨hinv.deadNodup, ?_, ?_⟩
  · intro cfg' h
    exact solveStep_dead_mono h
  · intro x y z rest hst hd
    have hne : ¬(x = n ∧ y = j ∧ z = k) := by
      intro hcon
      exact hinv.deadNotTarget _ hd (by rw [hcon.1, hcon.2.1, hcon.2.2])
    rw [hst]
    exact solveStep_deadhit hne hd

theorem dead_states_final_witness :
    ([((0 : Int), (0 : Int), (0 : Int))] : List State).Nodup ∧
      (∀ cfg', solveStep false 1 0 0 [1] [1] [1, 0, 0]
          [((0 : Int), (0 : Int), (0 : Int))] = some (Sum.inl cfg') →
        ∀ s ∈ ([((0 : Int), (0 : Int), (0 : Int))] : List State), s ∈ cfg'.2) ∧
      (∀ (x y z : Int) (rest : List Int),
        ([1, 0, 0] : List Int) = x :: y :: z :: rest →
        (x, y, z) ∈ ([((0 : Int), (0 : Int), (0 : Int))] : List State) →
        solveStep false 1 0 0 [1] [1] [1, 0, 0]
            [((0 : Int), (0 : Int), (0 : Int))] =
          some (Sum.inl (rest, [((0 : Int), (0 : Int), (0 : Int))]))) :=
  @dead_states_final 1 0 0 [1] [1] (by decide)
    ([1, 0, 0], [((0 : Int), (0 : Int), (0 : Int))])
    (Relation.ReflTransGen.single (by decide))

/-- C6: for every valid input, the variant of `solve` that pushes the two
successors in the opposite order (Skip pushed before Buy instead of Buy
before Skip) returns the same boolean result as the reference `solve`. -/
theorem push_order_irrelevant {n j k : Int} {prices calories : List Int}
    (hv : ValidInput n j k prices calories) :
    solveSwapped n j k prices calories = solve n j k prices calories := by
  obtain ⟨b1, hb1⟩ := solveRun_some true hv
  obtain ⟨b2, hb2⟩ := solveRun_some false hv
  have h1 := solveRun_true_iff true hv
  have h2 := solveRun_true_iff false hv
  rw [solveSwapped_def, solve_def, hb1, hb2]
  cases b1 with
  | true =>
      have hr := h1.mp hb1
      have h2' := h2.mpr hr
      rw [hb2] at h2'
      exact h2'.symm
  | false =>
      cases b2 with
      | true =>
          have hr := h2.mp hb2
          have h1' := h1.mpr hr
          rw [hb1] at h1'
          simp at h1'
      | false => rfl

theorem push_order_irrelevant_witness :
    solveSwapped 2 3 3 [2, 2] [2, 2] = solve 2 3 3 [2, 2] [2, 2] :=
  push_order_irrelevant (by decide)

/-- C7: for `n = 0` and any targets within capacity (memo table all
`Unknown`, stack empty at entry), `solve` returns `true` iff both targets
are zero. -/
theorem solve_zero_items {j k : Int} {prices calories : List Int}
    (hv : ValidInput 0 j k prices calories) :
    (solve 0 j k prices calories = some true) ↔ (j = 0 ∧ k = 0) := by
  rw [solve_true_iff hv]
  constructor
  · rintro ⟨bs, hlen, hpref, hsp, hsc⟩
    have hbs : bs = [] := List.eq_nil_of_length_eq_zero (by simpa using hlen)
    subst hbs
    have hj : (0 : Int) = j := hsp
    have hk : (0 : Int) = k := hsc
    exact ⟨hj.symm, hk.symm⟩
  · rintro ⟨rfl, rfl⟩
    refine ⟨[], by simp, ?_, rfl, rfl⟩
    intro m hm
    have hm0 : m = 0 := by simpa using hm
    subst hm0
    exact ⟨le_refl 0, le_refl 0⟩

theorem solve_zero_items_witness :
    (solve 0 0 0 [] [] = some true) ↔ ((0 : Int) = 0 ∧ (0 : Int) = 0) :=
  solve_zero_items (by decide)

/-- C8: for every valid input in which every item has price 0 and calories 0,
`solve` returns `true` iff both targets are zero, regardless of `n`. -/
theorem solve_all_free {n j k : Int} {prices calories : List Int}
    (hv : ValidInput n j k prices calories)
    (hp0 : ∀ p ∈ prices, p = 0) (hc0 : ∀ c ∈ calories, c = 0) :
    (solve n j k prices calories = some true) ↔ (j = 0 ∧ k = 0) := by
  rw [solve_true_iff hv]
  constructor
  · rintro ⟨bs, hlen, hpref, hsp, hsc⟩
    rw [chosenSum_zero hp0] at hsp
    rw [chosenSum_zero hc0] at hsc
    exact ⟨hsp.symm, hsc.symm⟩
  · rintro ⟨rfl, rfl⟩
    refine ⟨List.replicate n.toNat false, List.length_replicate _ _, ?_,
      chosenSum_zero hp0 _, chosenSum_zero hc0 _⟩
    intro m hm
    rw [chosenSum_zero hp0, chosenSum_zero hc0]
    exact ⟨le_refl 0, le_refl 0⟩

theorem solve_all_free_witness :
    (solve 2 0 0 [0, 0] [0, 0] = some true) ↔ ((0 : Int) = 0 ∧ (0 : Int) = 0) :=
  solve_all_free (by decide) (by decide) (by decide)

/-- C9: on the concrete input `n = 3`, `j = 10`, `k = 10` with items
`(5,5), (5,5), (1,1)` (memo table all `Unknown` and stack empty at entry),
`solve` returns `true`. -/
theorem solve_scenario1 : solve 3 10 10 [5, 5, 1] [5, 5, 1] = some true := by
  decide

/-- C10: on the concrete input `n = 2`, `j = 3`, `k = 3` with items
`(2,2), (2,2)` (memo table all `Unknown` and stack empty at entry), `solve`
returns `false`. -/
theorem solve_scenario2 : solve 2 3 3 [2, 2] [2, 2] = some false := by
  decide

end ProblemA
